import Mathlib

/-!
Verification of the ctyencode package: the typed-value encoding engine that
converts Go native values (inspected through reflection) into values of the
cty type system, directed by a target type.

The cty value/type model and the struct-tag resolver are external
collaborators of the encoder; they are modelled from the spec.  The encoder
itself (Encode, encode, the per-constructor handlers and unwrapPointer) is
translated from the source.  Each encoding function returns its result
together with the final value of its local path variable, so that the
path-discipline invariant can be stated.
-/

/-- Modelled from the spec: the closed set of cty type constructors
(Bool, Number, String, List, Map, Set, Object, Tuple, Dynamic, Capsule).
Object attribute types are carried as an association list; a capsule type
carries the name of its encapsulated native type. -/
inductive Ty where
  | bool
  | number
  | string
  | dynamic
  | list (ety : Ty)
  | map (ety : Ty)
  | set (ety : Ty)
  | object (attrs : List (String × Ty))
  | tuple (etys : List Ty)
  | capsule (elemName : String)

/-- The reflect.Kind of a Go native value, as used in error messages and in
the dispatch of the handlers. -/
inductive GoKind where
  | invalid
  | ptr
  | iface
  | bool
  | int
  | uint
  | str
  | slice
  | array
  | mapk
  | struct
deriving DecidableEq

mutual
/-- Modelled from the spec: a cty value.  Null is a distinct per-type state.
Collection values record their element type; object and tuple values record
their attribute and element types.  A capsule value stores a reference to a
native value. -/
inductive Value where
  | null (ty : Ty)
  | bool (b : Bool)
  | number (n : Int)
  | str (s : String)
  | list (ety : Ty) (vs : List Value)
  | mapV (ety : Ty) (entries : List (String × Value))
  | setV (ety : Ty) (vs : List Value)
  | object (attrs : List (String × Ty)) (entries : List (String × Value))
  | tuple (etys : List Ty) (vs : List Value)
  | capsule (elemName : String) (payload : GoVal)

/-- A Go native value as seen through reflection.  invalid is the zero
reflect.Value.  Pointers and interfaces either hold a value or are nil.
A nil slice and a nil map are flagged.  Maps record the kind of their key
type; their entries are kept as a string association list (only read when
the key kind is string). -/
inductive GoVal where
  | invalid
  | ptrNil
  | ptr (v : GoVal)
  | ifaceNil
  | iface (v : GoVal)
  | boolv (b : Bool)
  | intv (n : Int)
  | uintv (n : Nat)
  | strv (s : String)
  | slicev (isNil : Bool) (elems : List GoVal)
  | arrayv (elems : List GoVal)
  | mapv (keyKind : GoKind) (isNil : Bool) (entries : List (String × GoVal))
  | structv (s : GoStruct)

/-- The struct types the encoder distinguishes by assignability: a cty.Value,
a big.Int, a cty set.Set container, or an ordinary named struct with its
fields and its river tag mapping (attribute name to field index). -/
inductive GoStruct where
  | ctyVal (v : Value)
  | bigIntS (n : Int)
  | setS (vals : List GoVal)
  | plain (name : String) (fields : List GoVal) (tags : List (String × Nat))
end

/-- A cty path step: an index step (keyed by a cty value) or an attribute
step.  nilStep models the placeholder cty.PathStep(nil) appended by the
handlers before their element loops. -/
inductive PathStep where
  | nilStep
  | index (key : Value)
  | getAttr (name : String)

/-- A cty.Path: the ordered sequence of steps to the value being encoded. -/
abbrev CtyPath := List PathStep

/-- The closed set of causes carried by the error format strings of the
encoder, with the data each format string interpolates. -/
inductive EncMsg where
  | cannotConvert (kind : GoKind) (target : Ty)
  | cannotConvertType (tyName : String) (target : Ty)
  | nonStringKey (keyKind : GoKind)
  | wrongNumElements (got need : Nat)
  | wrongNumFields (got need : Nat)
  | capsuleNotAddressable (target : Ty)
  | capsuleIncompatible (elemName : String) (target : Ty)
  | dynamicOnlyValue (kind : GoKind)
  | dynamicOnlyValueType (tyName : String)
  | unsuitableValue (msg : String)
  | fieldIndexOutOfRange (idx : Nat)

/-- A path-annotated encoding error, as produced by path.NewErrorf. -/
structure EncErr where
  path : CtyPath
  msg : EncMsg

/-- Result of an encoding function: the value or error, paired with the
final value of the local path variable of that function. -/
abbrev EncResult := Except EncErr Value × CtyPath

/-- The reflect.Kind of a native value. -/
def GoVal.kind : GoVal → GoKind
  | .invalid => .invalid
  | .ptrNil => .ptr
  | .ptr _ => .ptr
  | .ifaceNil => .iface
  | .iface _ => .iface
  | .boolv _ => .bool
  | .intv _ => .int
  | .uintv _ => .uint
  | .strv _ => .str
  | .slicev _ _ => .slice
  | .arrayv _ => .array
  | .mapv _ _ _ => .mapk
  | .structv _ => .struct

/-- The Go type name of a struct value, used in error messages and in the
capsule assignability check. -/
def GoStruct.typeName : GoStruct → String
  | .ctyVal _ => "cty.Value"
  | .bigIntS _ => "big.Int"
  | .setS _ => "set.Set"
  | .plain name _ _ => name

/-- A coarse Go type name for a native value, used by the capsule handler
for its assignability check and error message. -/
def GoVal.typeName : GoVal → String
  | .invalid => "invalid"
  | .ptrNil => "ptr"
  | .ptr _ => "ptr"
  | .ifaceNil => "iface"
  | .iface _ => "iface"
  | .boolv _ => "bool"
  | .intv _ => "int"
  | .uintv _ => "uint"
  | .strv _ => "string"
  | .slicev _ _ => "slice"
  | .arrayv _ => "array"
  | .mapv _ _ _ => "map"
  | .structv s => s.typeName

/-- unwrapPointer repeatedly dereferences while the value is a pointer or
an interface; a nil reference yields the invalid value. -/
def unwrapPointer : GoVal → GoVal
  | .ptrNil => .invalid
  | .ptr v => unwrapPointer v
  | .ifaceNil => .invalid
  | .iface v => unwrapPointer v
  | v => v

/-- Fields of a struct value, as indexed by reflect Field. Only ordinary
structs expose fields in this model. -/
def GoStruct.fields : GoStruct → List GoVal
  | .plain _ fields _ => fields
  | _ => []

/-- Modelled from the spec: the struct-tag resolver rivertags.Get, mapping
declared attribute names to field indices of a native struct type; types
that are not ordinary structs declare no attributes. -/
def rivertagsGet : GoStruct → List (String × Nat)
  | .plain _ _ tags => tags
  | _ => []

/-- First-match lookup in a string association list, modelling Go map
indexing and the resolver lookup. -/
def lookupStr {α : Type} : List (String × α) → String → Option α
  | [], _ => none
  | (k, v) :: rest, key => if k = key then some v else lookupStr rest key

mutual
/-- Structural equality of cty types, modelling Type.Equals of the value
model. -/
def Ty.beq : Ty → Ty → Bool
  | .bool, .bool => true
  | .number, .number => true
  | .string, .string => true
  | .dynamic, .dynamic => true
  | .list a, .list b => Ty.beq a b
  | .map a, .map b => Ty.beq a b
  | .set a, .set b => Ty.beq a b
  | .object as, .object bs => Ty.beqAttrs as bs
  | .tuple as, .tuple bs => Ty.beqList as bs
  | .capsule a, .capsule b => a == b
  | _, _ => false

/-- Equality of attribute type lists, name by name and type by type. -/
def Ty.beqAttrs : List (String × Ty) → List (String × Ty) → Bool
  | [], [] => true
  | (k, a) :: as, (k2, b) :: bs => k == k2 && Ty.beq a b && Ty.beqAttrs as bs
  | _, _ => false

/-- Equality of element type lists, position by position. -/
def Ty.beqList : List Ty → List Ty → Bool
  | [], [] => true
  | a :: as, b :: bs => Ty.beq a b && Ty.beqList as bs
  | _, _ => false
end

/-- The cty type inhabited by a value. -/
def Value.typeOf : Value → Ty
  | .null ty => ty
  | .bool _ => .bool
  | .number _ => .number
  | .str _ => .string
  | .list ety _ => .list ety
  | .mapV ety _ => .map ety
  | .setV ety _ => .set ety
  | .object attrs _ => .object attrs
  | .tuple etys _ => .tuple etys
  | .capsule elemName _ => .capsule elemName

/-- Modelled from the spec: convert.Convert of the value model, the
conversion rule with its own compatibility notion that the encoder consumes
without reimplementing.  A value converts to its own type unchanged, and
every value converts to the dynamic pseudo type unchanged; other
conversions are rejected. -/
def Convert (v : Value) (ty : Ty) : Except String Value :=
  if (Value.typeOf v).beq ty then .ok v
  else if ty.beq .dynamic then .ok v
  else .error "incompatible type"

/-- encodeBool: unwrap, null on absent, accept the boolean kind, reject any
other kind. -/
def encodeBool (val : GoVal) (path : CtyPath) : EncResult :=
  match unwrapPointer val with
  | .invalid => (.ok (.null .bool), path)
  | .boolv b => (.ok (.bool b), path)
  | w => (.error ⟨path, .cannotConvert w.kind .bool⟩, path)

/-- encodeNumber: unwrap, null on absent, accept the fixed width integer
kinds and the arbitrary precision big.Int struct, reject any other kind.
Floating point kinds are outside this model. -/
def encodeNumber (val : GoVal) (path : CtyPath) : EncResult :=
  match unwrapPointer val with
  | .invalid => (.ok (.null .number), path)
  | .intv n => (.ok (.number n), path)
  | .uintv n => (.ok (.number (Int.ofNat n)), path)
  | .structv (.bigIntS n) => (.ok (.number n), path)
  | w => (.error ⟨path, .cannotConvert w.kind .number⟩, path)

/-- encodeString: unwrap, null on absent, accept the textual kind, reject
any other kind. -/
def encodeString (val : GoVal) (path : CtyPath) : EncResult :=
  match unwrapPointer val with
  | .invalid => (.ok (.null .string), path)
  | .strv s => (.ok (.str s), path)
  | w => (.error ⟨path, .cannotConvert w.kind .string⟩, path)

/-- encodeDynamic: unwrap, null on absent; only a native that is itself a
cty.Value is accepted, and it is returned unchanged. -/
def encodeDynamic (val : GoVal) (path : CtyPath) : EncResult :=
  match unwrapPointer val with
  | .invalid => (.ok (.null .dynamic), path)
  | .structv (.ctyVal v) => (.ok v, path)
  | .structv s => (.error ⟨path, .dynamicOnlyValueType s.typeName⟩, path)
  | w => (.error ⟨path, .dynamicOnlyValue w.kind⟩, path)

/-- encodePassthruogh: unwrap, null on absent, then delegate to Convert of
the value model; a conversion failure is wrapped with the current path.
The non cty.Value branch models the Go type assertion panic; it is
unreachable from encode, which only dispatches here for cty.Value natives. -/
def encodePassthruogh (wrappedVal : GoVal) (wantTy : Ty) (path : CtyPath) : EncResult :=
  match unwrapPointer wrappedVal with
  | .invalid => (.ok (.null wantTy), path)
  | .structv (.ctyVal givenVal) =>
    match Convert givenVal wantTy with
    | .error e => (.error ⟨path, .unsuitableValue e⟩, path)
    | .ok v => (.ok v, path)
  | _ => (.error ⟨path, .unsuitableValue "interface conversion panic"⟩, path)

/-- unwrapPointer together with reflect addressability: the flag records
whether the last dereference went through a pointer, which in Go reflection
is exactly when the unwrapped value is addressable. -/
def unwrapAddr : GoVal → Bool → GoVal × Bool
  | .ptrNil, _ => (.invalid, false)
  | .ptr v, _ => unwrapAddr v true
  | .ifaceNil, _ => (.invalid, false)
  | .iface v, _ => unwrapAddr v false
  | v, a => (v, a)

/-- encodeCapsule: unwrap, null on absent; the payload must be addressable
(the capsule stores a handle, not a copy), and its type must be assignable
to the encapsulated type of the capsule. -/
def encodeCapsule (val : GoVal) (elemName : String) (path : CtyPath) : EncResult :=
  match unwrapAddr val false with
  | (.invalid, _) => (.ok (.null (.capsule elemName)), path)
  | (w, addr) =>
    if addr then
      if w.typeName == elemName then
        (.ok (.capsule elemName (.ptr w)), path)
      else
        (.error ⟨path, .capsuleIncompatible w.typeName (.capsule elemName)⟩, path)
    else
      (.error ⟨path, .capsuleNotAddressable (.capsule elemName)⟩, path)

mutual
/-- encode: the recursive dispatcher.  A native that is itself a cty.Value
is passed through first, unconditionally, before the target type is
inspected; otherwise dispatch is on the target type constructor.  The
unsupported-target fallthrough of the source is unreachable here because
the type model is closed. -/
def encode (val : GoVal) (ty : Ty) (path : CtyPath) : EncResult :=
  match val with
  | .structv (.ctyVal _) => encodePassthruogh val ty path
  | _ =>
    match ty with
    | .bool => encodeBool val path
    | .number => encodeNumber val path
    | .string => encodeString val path
    | .dynamic => encodeDynamic val path
    | .list ety => encodeList val ety path
    | .map ety => encodeMap val ety path
    | .set ety => encodeSet val ety path
    | .object attrs => encodeObject val attrs path
    | .tuple etys => encodeTuple val etys path
    | .capsule elemName => encodeCapsule val elemName path

termination_by (sizeOf ty, 2, 0)
/-- encodeList: nil or absent yields the typed null, an empty sequence the
empty list; otherwise each element is encoded in order under an index path
step, aborting on the first failure.  The appended path slot is dropped
again before a successful return. -/
def encodeList (val : GoVal) (ety : Ty) (path : CtyPath) : EncResult :=
  match unwrapPointer val with
  | .invalid => (.ok (.null (.list ety)), path)
  | .slicev true _ => (.ok (.null (.list ety)), path)
  | .slicev false elems =>
    if elems.length = 0 then (.ok (.list ety []), path)
    else
      match encodeListLoop elems 0 ety (path ++ [PathStep.nilStep]) with
      | (.error e, pf) => (.error e, pf)
      | (.ok vs, pf) => (.ok (.list ety vs), pf.dropLast)
  | .arrayv elems =>
    if elems.length = 0 then (.ok (.list ety []), path)
    else
      match encodeListLoop elems 0 ety (path ++ [PathStep.nilStep]) with
      | (.error e, pf) => (.error e, pf)
      | (.ok vs, pf) => (.ok (.list ety vs), pf.dropLast)
  | w => (.error ⟨path, .cannotConvert w.kind (.list ety)⟩, path)

termination_by (1 + sizeOf ety, 1, 0)
/-- The element loop of encodeList: p is the local path of the handler,
whose last slot is overwritten with the index step of each element before
the recursive call. -/
def encodeListLoop (elems : List GoVal) (i : Nat) (ety : Ty) (p : CtyPath) :
    Except EncErr (List Value) × CtyPath :=
  match elems with
  | [] => (.ok [], p)
  | e :: rest =>
    let p1 := p.dropLast ++ [PathStep.index (Value.number (Int.ofNat i))]
    match encode e ety p1 with
    | (.error err, _) => (.error err, p1)
    | (.ok v, _) =>
      match encodeListLoop rest (i + 1) ety p1 with
      | (.error err, pf) => (.error err, pf)
      | (.ok vs, pf) => (.ok (v :: vs), pf)

termination_by (1 + sizeOf ety, 0, sizeOf elems)
/-- encodeMap: nil or absent yields the typed null, an empty mapping the
empty map; a non-string key kind is rejected (checked after the emptiness
shortcuts); otherwise each entry value is encoded under an index path step
keyed by the map key, aborting on the first failure. -/
def encodeMap (val : GoVal) (ety : Ty) (path : CtyPath) : EncResult :=
  match unwrapPointer val with
  | .invalid => (.ok (.null (.map ety)), path)
  | .mapv keyKind isNil entries =>
    if isNil then (.ok (.null (.map ety)), path)
    else if entries.length = 0 then (.ok (.mapV ety []), path)
    else if keyKind = GoKind.str then
      match encodeMapLoop entries ety (path ++ [PathStep.nilStep]) with
      | (.error e, pf) => (.error e, pf)
      | (.ok vs, pf) => (.ok (.mapV ety vs), pf.dropLast)
    else (.error ⟨path, .nonStringKey keyKind⟩, path)
  | w => (.error ⟨path, .cannotConvert w.kind (.map ety)⟩, path)

termination_by (1 + sizeOf ety, 1, 0)
/-- The entry loop of encodeMap: each entry value is encoded under an index
step keyed by the entry key. -/
def encodeMapLoop (entries : List (String × GoVal)) (ety : Ty) (p : CtyPath) :
    Except EncErr (List (String × Value)) × CtyPath :=
  match entries with
  | [] => (.ok [], p)
  | (k, gv) :: rest =>
    let p1 := p.dropLast ++ [PathStep.index (Value.str k)]
    match encode gv ety p1 with
    | (.error err, _) => (.error err, p1)
    | (.ok v, _) =>
      match encodeMapLoop rest ety p1 with
      | (.error err, pf) => (.error err, pf)
      | (.ok vs, pf) => (.ok ((k, v) :: vs), pf)

termination_by (1 + sizeOf ety, 0, sizeOf entries)
/-- encodeSet: sequences are encoded element by element like a list, but
without pushing element path steps; a set.Set container contributes its
values; nil or absent yields the typed null and a zero length input the
empty set. -/
def encodeSet (val : GoVal) (ety : Ty) (path : CtyPath) : EncResult :=
  match unwrapPointer val with
  | .invalid => (.ok (.null (.set ety)), path)
  | .slicev true _ => (.ok (.null (.set ety)), path)
  | .slicev false elems =>
    if elems.length = 0 then (.ok (.setV ety []), path)
    else
      match encodeSetLoop elems ety path with
      | .error e => (.error e, path)
      | .ok vs => (.ok (.setV ety vs), path)
  | .arrayv elems =>
    if elems.length = 0 then (.ok (.setV ety []), path)
    else
      match encodeSetLoop elems ety path with
      | .error e => (.error e, path)
      | .ok vs => (.ok (.setV ety vs), path)
  | .structv (.setS vals) =>
    if vals.length = 0 then (.ok (.setV ety []), path)
    else
      match encodeSetLoop vals ety path with
      | .error e => (.error e, path)
      | .ok vs => (.ok (.setV ety vs), path)
  | .structv s => (.error ⟨path, .cannotConvertType s.typeName (.set ety)⟩, path)
  | w => (.error ⟨path, .cannotConvert w.kind (.set ety)⟩, path)

termination_by (1 + sizeOf ety, 1, 0)
/-- The element loop of encodeSet: elements are encoded at the unchanged
path of the handler, since set membership is not index addressable. -/
def encodeSetLoop (elems : List GoVal) (ety : Ty) (p : CtyPath) :
    Except EncErr (List Value) :=
  match elems with
  | [] => .ok []
  | e :: rest =>
    match encode e ety p with
    | (.error err, _) => .error err
    | (.ok v, _) =>
      match encodeSetLoop rest ety p with
      | .error err => .error err
      | .ok vs => .ok (v :: vs)

termination_by (1 + sizeOf ety, 0, sizeOf elems)
/-- encodeObject: accepts string keyed mappings and structs.  Iteration is
over the declared attributes of the target type; for a mapping, absent keys
yield typed nulls; for a struct, the river tag resolver maps attribute
names to fields and unresolved attributes yield typed nulls.  A non-string
key kind is rejected before the empty attribute shortcut. -/
def encodeObject (val : GoVal) (attrs : List (String × Ty)) (path : CtyPath) : EncResult :=
  match unwrapPointer val with
  | .invalid => (.ok (.null (.object attrs)), path)
  | .mapv keyKind isNil entries =>
    if isNil then (.ok (.null (.object attrs)), path)
    else if keyKind = GoKind.str then
      if attrs.length = 0 then (.ok (.object [] []), path)
      else
        match encodeObjectMapLoop attrs entries (path ++ [PathStep.nilStep]) with
        | (.error e, pf) => (.error e, pf)
        | (.ok vs, pf) => (.ok (.object attrs vs), pf.dropLast)
    else (.error ⟨path, .nonStringKey keyKind⟩, path)
  | .structv s =>
    if attrs.length = 0 then (.ok (.object [] []), path)
    else
      match encodeObjectStructLoop attrs (GoStruct.fields s) (rivertagsGet s)
          (path ++ [PathStep.nilStep]) with
      | (.error e, pf) => (.error e, pf)
      | (.ok vs, pf) => (.ok (.object attrs vs), pf.dropLast)
  | w => (.error ⟨path, .cannotConvert w.kind (.object attrs)⟩, path)

termination_by (1 + sizeOf attrs, 1, 0)
/-- The attribute loop of encodeObject over a string keyed mapping: each
declared attribute is processed under an attribute path step; keys missing
from the mapping yield the typed null of the attribute type. -/
def encodeObjectMapLoop (attrs : List (String × Ty)) (entries : List (String × GoVal))
    (p : CtyPath) : Except EncErr (List (String × Value)) × CtyPath :=
  match attrs with
  | [] => (.ok [], p)
  | (k, aty) :: rest =>
    let p1 := p.dropLast ++ [PathStep.getAttr k]
    match lookupStr entries k with
    | none =>
      match encodeObjectMapLoop rest entries p1 with
      | (.error err, pf) => (.error err, pf)
      | (.ok vs, pf) => (.ok ((k, Value.null aty) :: vs), pf)
    | some gv =>
      match encode gv aty p1 with
      | (.error err, _) => (.error err, p1)
      | (.ok v, _) =>
        match encodeObjectMapLoop rest entries p1 with
        | (.error err, pf) => (.error err, pf)
        | (.ok vs, pf) => (.ok ((k, v) :: vs), pf)

termination_by (1 + sizeOf attrs, 0, 0)
/-- The attribute loop of encodeObject over a struct: each declared
attribute is processed under an attribute path step; attributes the tag
resolver leaves unresolved yield the typed null of the attribute type.  An
out of range resolved field index models the Go panic of reflect Field. -/
def encodeObjectStructLoop (attrs : List (String × Ty)) (fields : List GoVal)
    (tags : List (String × Nat)) (p : CtyPath) :
    Except EncErr (List (String × Value)) × CtyPath :=
  match attrs with
  | [] => (.ok [], p)
  | (k, aty) :: rest =>
    let p1 := p.dropLast ++ [PathStep.getAttr k]
    match lookupStr tags k with
    | none =>
      match encodeObjectStructLoop rest fields tags p1 with
      | (.error err, pf) => (.error err, pf)
      | (.ok vs, pf) => (.ok ((k, Value.null aty) :: vs), pf)
    | some idx =>
      if h : idx < fields.length then
        match encode (fields.get ⟨idx, h⟩) aty p1 with
        | (.error err, _) => (.error err, p1)
        | (.ok v, _) =>
          match encodeObjectStructLoop rest fields tags p1 with
          | (.error err, pf) => (.error err, pf)
          | (.ok vs, pf) => (.ok ((k, v) :: vs), pf)
      else (.error ⟨p1, .fieldIndexOutOfRange idx⟩, p1)

termination_by (1 + sizeOf attrs, 0, 0)
/-- encodeTuple: accepts slices and structs.  The element or field count
must equal the declared element type count, checked before any element is
encoded; zero declared elements yield the canonical empty tuple; otherwise
elements are encoded positionally under index path steps. -/
def encodeTuple (val : GoVal) (etys : List Ty) (path : CtyPath) : EncResult :=
  match unwrapPointer val with
  | .invalid => (.ok (.null (.tuple etys)), path)
  | .slicev true _ => (.ok (.null (.tuple etys)), path)
  | .slicev false elems =>
    if elems.length ≠ etys.length then
      (.error ⟨path, .wrongNumElements elems.length etys.length⟩, path)
    else if etys.length = 0 then (.ok (.tuple [] []), path)
    else
      match encodeTupleLoop etys elems 0 (path ++ [PathStep.nilStep]) with
      | (.error e, pf) => (.error e, pf)
      | (.ok vs, pf) => (.ok (.tuple etys vs), pf.dropLast)
  | .structv s =>
    if (GoStruct.fields s).length ≠ etys.length then
      (.error ⟨path, .wrongNumFields (GoStruct.fields s).length etys.length⟩, path)
    else if etys.length = 0 then (.ok (.tuple [] []), path)
    else
      match encodeTupleLoop etys (GoStruct.fields s) 0 (path ++ [PathStep.nilStep]) with
      | (.error e, pf) => (.error e, pf)
      | (.ok vs, pf) => (.ok (.tuple etys vs), pf.dropLast)
  | w => (.error ⟨path, .cannotConvert w.kind (.tuple etys)⟩, path)

termination_by (1 + sizeOf etys, 1, 0)
/-- The positional loop of encodeTuple, shared by the slice and the struct
cases: element i is encoded against declared type i under an index step. -/
def encodeTupleLoop (etys : List Ty) (elems : List GoVal) (i : Nat) (p : CtyPath) :
    Except EncErr (List Value) × CtyPath :=
  match etys, elems with
  | ety :: etysRest, e :: elemsRest =>
    let p1 := p.dropLast ++ [PathStep.index (Value.number (Int.ofNat i))]
    match encode e ety p1 with
    | (.error err, _) => (.error err, p1)
    | (.ok v, _) =>
      match encodeTupleLoop etysRest elemsRest (i + 1) p1 with
      | (.error err, pf) => (.error err, pf)
      | (.ok vs, pf) => (.ok (v :: vs), pf)
  | _, _ => (.ok [], p)
termination_by (1 + sizeOf etys, 0, 0)
end

/-- Encode: the single operation the encoder exposes; it starts the
recursive descent with an empty path. -/
def Encode (val : GoVal) (ty : Ty) : Except EncErr Value :=
  (encode val ty []).1

/-- A native value that is a nil pointer or nil interface chain of any
depth: the innermost link is a nil pointer or nil interface, possibly
wrapped in further pointers or interfaces. -/
inductive NilChain : GoVal → Prop where
  | ptrNil : NilChain .ptrNil
  | ifaceNil : NilChain .ifaceNil
  | ptr (v : GoVal) : NilChain v → NilChain (.ptr v)
  | iface (v : GoVal) : NilChain v → NilChain (.iface v)

/-- q extends p when q begins with all steps of p. -/
def PathExtends (q p : CtyPath) : Prop := ∃ r, q = p ++ r

/-- q strictly extends p when q begins with p and is at least one step
deeper. -/
def PathExtendsS (q p : CtyPath) : Prop := ∃ s r, q = p ++ s :: r

theorem unwrapPointer_nilChain {v : GoVal} (h : NilChain v) :
    unwrapPointer v = .invalid := by
  induction h with
  | ptrNil => rfl
  | ifaceNil => rfl
  | ptr w _ ih => simpa [unwrapPointer] using ih
  | iface w _ ih => simpa [unwrapPointer] using ih

theorem unwrapAddr_nilChain {v : GoVal} (h : NilChain v) (b : Bool) :
    unwrapAddr v b = (.invalid, false) := by
  induction h generalizing b with
  | ptrNil => rfl
  | ifaceNil => rfl
  | ptr w _ ih => simpa [unwrapAddr] using ih true
  | iface w _ ih => simpa [unwrapAddr] using ih false

/-- C2: for every target type constructor and every native value that is a
nil or absent pointer-or-interface chain of any depth, Encode returns
exactly the typed null of the target type and never an error, skipping all
type-specific validation. -/
theorem claim2_null_propagation (ty : Ty) (v : GoVal) (h : NilChain v) (path : CtyPath) :
    encode v ty path = (.ok (.null ty), path) := by
  have hu := unwrapPointer_nilChain h
  have hua := unwrapAddr_nilChain h false
  cases h with
  | ptrNil =>
    cases ty <;>
      simp [encode, encodeBool, encodeNumber, encodeString, encodeDynamic, encodeList,
        encodeMap, encodeSet, encodeObject, encodeTuple, encodeCapsule, hu, hua]
  | ifaceNil =>
    cases ty <;>
      simp [encode, encodeBool, encodeNumber, encodeString, encodeDynamic, encodeList,
        encodeMap, encodeSet, encodeObject, encodeTuple, encodeCapsule, hu, hua]
  | ptr w hw =>
    cases ty <;>
      simp [encode, encodeBool, encodeNumber, encodeString, encodeDynamic, encodeList,
        encodeMap, encodeSet, encodeObject, encodeTuple, encodeCapsule, hu, hua]
  | iface w hw =>
    cases ty <;>
      simp [encode, encodeBool, encodeNumber, encodeString, encodeDynamic, encodeList,
        encodeMap, encodeSet, encodeObject, encodeTuple, encodeCapsule, hu, hua]

/-- C1: for every native value whose type is itself a typed value and every
target type, encode bypasses all native-kind dispatch and invokes the value
model Convert rule; the check comes first, unconditionally, before the
target type is inspected, and a Convert failure is surfaced as the
path-annotated encoding error. -/
theorem claim1_passthru_convert (v : Value) (ty : Ty) (path : CtyPath) :
    encode (.structv (.ctyVal v)) ty path =
      match Convert v ty with
      | .ok w => (.ok w, path)
      | .error e => (.error ⟨path, .unsuitableValue e⟩, path) := by
  cases hc : Convert v ty <;>
    simp [encode, encodePassthruogh, unwrapPointer, hc]

/-- C9: for every already-typed value v and target type compatible with the
type of v, Encode equals the Convert rule of the value model, and
re-encoding the result against the same type produces the same value. -/
theorem claim9_passthru_idempotent (v w : Value) (ty : Ty) (path : CtyPath)
    (h : Convert v ty = .ok w) :
    (encode (.structv (.ctyVal v)) ty path).1 = .ok w ∧
    (encode (.structv (.ctyVal w)) ty path).1 = .ok w := by
  have hvw : w = v := by
    unfold Convert at h
    split at h
    · exact (Except.ok.inj h).symm
    · split at h
      · exact (Except.ok.inj h).symm
      · exact absurd h (by simp)
  subst hvw
  have hidem : Convert w ty = .ok w := h
  constructor <;> simp [encode, encodePassthruogh, unwrapPointer, hidem]

/-- C8: a non-nil zero-length sequence against a list or set type, and a
non-nil zero-length string-keyed mapping against a map type, encode to the
empty collection value of the target type, which is distinct from the typed
null of that type. -/
theorem claim8_empty_vs_null (ety : Ty) (p : CtyPath) :
    ((encode (.slicev false []) (.list ety) p).1 = .ok (.list ety []) ∧
      Value.list ety [] ≠ Value.null (.list ety)) ∧
    ((encode (.arrayv []) (.list ety) p).1 = .ok (.list ety [])) ∧
    ((encode (.slicev false []) (.set ety) p).1 = .ok (.setV ety []) ∧
      Value.setV ety [] ≠ Value.null (.set ety)) ∧
    ((encode (.arrayv []) (.set ety) p).1 = .ok (.setV ety [])) ∧
    ((encode (.mapv .str false []) (.map ety) p).1 = .ok (.mapV ety []) ∧
      Value.mapV ety [] ≠ Value.null (.map ety)) := by
  refine ⟨⟨?_, ?_⟩, ?_, ⟨?_, ?_⟩, ?_, ⟨?_, ?_⟩⟩ <;>
    simp [encode, encodeList, encodeSet, encodeMap, unwrapPointer]

/-- C3 counterexample: a non-string-key native mapping does not always
fail; a nil-flagged-false empty mapping with int keys encoded against a map
type yields the empty map, because the emptiness shortcut of encodeMap runs
before its key-kind check. -/
theorem claim3_counterexample :
    GoKind.int ≠ GoKind.str ∧
    (encode (.mapv .int false []) (.map .bool) []).1 = .ok (.mapV .bool []) := by
  constructor
  · decide
  · simp [encode, encodeMap, unwrapPointer]

/-- C3 amended: a non-nil native mapping with a non-string key kind fails
with the non-string-key cause against every object target, and against
every map target provided the mapping is non-empty (an empty one yields the
empty map and a nil one the typed null). -/
theorem claim3_nonstring_key_amended (kk : GoKind) (hk : kk ≠ .str) (entries : List (String × GoVal))
    (attrs : List (String × Ty)) (ety : Ty) (p : CtyPath) :
    (encode (.mapv kk false entries) (.object attrs) p).1 = .error ⟨p, .nonStringKey kk⟩ ∧
    (entries ≠ [] →
      (encode (.mapv kk false entries) (.map ety) p).1 = .error ⟨p, .nonStringKey kk⟩) := by
  constructor
  · simp [encode, encodeObject, unwrapPointer, hk]
  · intro he
    simp [encode, encodeMap, unwrapPointer, hk, he]

/-- C5 counterexample: a non-absent native value of a kind that is neither
a mapping nor a struct, encoded against the empty object type, is an error
rather than the canonical empty-object value. -/
theorem claim5_counterexample :
    unwrapPointer (.intv 5) = .intv 5 ∧
    (encode (.intv 5) (.object []) []).1 =
      .error ⟨[], .cannotConvert .int (.object [])⟩ := by
  constructor
  · rfl
  · simp [encode, encodeObject, unwrapPointer, GoVal.kind]

/-- C5 amended: against a target object type with zero declared attributes,
every non-nil string-keyed native mapping and every native struct that is
not itself a typed value encode to the canonical empty-object value,
regardless of content. -/
theorem claim5_empty_object_amended (entries : List (String × GoVal)) (s : GoStruct)
    (hs : ∀ v, s ≠ .ctyVal v) (p : CtyPath) :
    (encode (.mapv .str false entries) (.object []) p).1 = .ok (.object [] []) ∧
    (encode (.structv s) (.object []) p).1 = .ok (.object [] []) := by
  constructor
  · simp [encode, encodeObject, unwrapPointer]
  · cases s with
    | ctyVal v => exact absurd rfl (hs v)
    | bigIntS n => simp [encode, encodeObject, unwrapPointer]
    | setS vals => simp [encode, encodeObject, unwrapPointer]
    | plain n fs tags => simp [encode, encodeObject, unwrapPointer]


theorem encodeListLoop_ok_path (ety : Ty) :
    ∀ (elems : List GoVal) (i : Nat) (p : CtyPath) (vs : List Value) (pf : CtyPath),
      encodeListLoop elems i ety p = (.ok vs, pf) → pf.dropLast = p.dropLast := by
  intro elems
  induction elems with
  | nil =>
    intro i p vs pf h
    rw [encodeListLoop] at h
    simp at h
    simp [h.2]
  | cons e rest ih =>
    intro i p vs pf h
    rw [encodeListLoop] at h
    split at h
    · exact absurd h (by simp)
    · split at h
      · exact absurd h (by simp)
      · next vs2 pf2 heq =>
        have h2 := ih _ _ _ _ heq
        simp at h h2
        rw [← h.2]
        exact h2

theorem encodeMapLoop_ok_path (ety : Ty) :
    ∀ (entries : List (String × GoVal)) (p : CtyPath) (vs : List (String × Value)) (pf : CtyPath),
      encodeMapLoop entries ety p = (.ok vs, pf) → pf.dropLast = p.dropLast := by
  intro entries
  induction entries with
  | nil =>
    intro p vs pf h
    rw [encodeMapLoop] at h
    simp at h
    simp [h.2]
  | cons kv rest ih =>
    intro p vs pf h
    rw [encodeMapLoop] at h
    split at h
    · exact absurd h (by simp)
    · split at h
      · exact absurd h (by simp)
      · next vs2 pf2 heq =>
        have h2 := ih _ _ _ heq
        simp at h h2
        rw [← h.2]
        exact h2

theorem encodeTupleLoop_ok_path :
    ∀ (etys : List Ty) (elems : List GoVal) (i : Nat) (p : CtyPath)
      (vs : List Value) (pf : CtyPath),
      encodeTupleLoop etys elems i p = (.ok vs, pf) → pf.dropLast = p.dropLast := by
  intro etys
  induction etys with
  | nil =>
    intro elems i p vs pf h
    simp [encodeTupleLoop] at h
    simp [h.2]
  | cons ety rest ih =>
    intro elems i p vs pf h
    cases elems with
    | nil =>
      simp [encodeTupleLoop] at h
      simp [h.2]
    | cons e erest =>
      rw [encodeTupleLoop] at h
      split at h
      · exact absurd h (by simp)
      · split at h
        · exact absurd h (by simp)
        · next vs2 pf2 heq =>
          have h2 := ih _ _ _ _ _ heq
          simp at h h2
          rw [← h.2]
          exact h2

theorem encodeObjectMapLoop_ok_path :
    ∀ (attrs : List (String × Ty)) (entries : List (String × GoVal)) (p : CtyPath)
      (vs : List (String × Value)) (pf : CtyPath),
      encodeObjectMapLoop attrs entries p = (.ok vs, pf) → pf.dropLast = p.dropLast := by
  intro attrs
  induction attrs with
  | nil =>
    intro entries p vs pf h
    rw [encodeObjectMapLoop] at h
    simp at h
    simp [h.2]
  | cons ka rest ih =>
    intro entries p vs pf h
    rw [encodeObjectMapLoop] at h
    split at h
    · split at h
      · exact absurd h (by simp)
      · next vs2 pf2 heq =>
        have h2 := ih _ _ _ _ heq
        simp at h h2
        rw [← h.2]
        exact h2
    · split at h
      · exact absurd h (by simp)
      · split at h
        · exact absurd h (by simp)
        · next vs2 pf2 heq =>
          have h2 := ih _ _ _ _ heq
          simp at h h2
          rw [← h.2]
          exact h2

theorem encodeObjectStructLoop_ok_path :
    ∀ (attrs : List (String × Ty)) (fields : List GoVal) (tags : List (String × Nat))
      (p : CtyPath) (vs : List (String × Value)) (pf : CtyPath),
      encodeObjectStructLoop attrs fields tags p = (.ok vs, pf) → pf.dropLast = p.dropLast := by
  intro attrs
  induction attrs with
  | nil =>
    intro fields tags p vs pf h
    rw [encodeObjectStructLoop] at h
    simp at h
    simp [h.2]
  | cons ka rest ih =>
    intro fields tags p vs pf h
    rw [encodeObjectStructLoop] at h
    split at h
    · split at h
      · exact absurd h (by simp)
      · next vs2 pf2 heq =>
        have h2 := ih _ _ _ _ _ heq
        simp at h h2
        rw [← h.2]
        exact h2
    · split at h
      · split at h
        · exact absurd h (by simp)
        · split at h
          · exact absurd h (by simp)
          · next vs2 pf2 heq =>
            have h2 := ih _ _ _ _ _ heq
            simp at h h2
            rw [← h.2]
            exact h2
      · exact absurd h (by simp)

theorem encodePassthruogh_path (w : GoVal) (ty : Ty) (path : CtyPath) :
    (encodePassthruogh w ty path).2 = path := by
  rw [encodePassthruogh]
  split
  · rfl
  · split <;> rfl
  · rfl

theorem encodeBool_path (w : GoVal) (path : CtyPath) :
    (encodeBool w path).2 = path := by
  rw [encodeBool]; split <;> rfl

theorem encodeNumber_path (w : GoVal) (path : CtyPath) :
    (encodeNumber w path).2 = path := by
  rw [encodeNumber]; split <;> rfl

theorem encodeString_path (w : GoVal) (path : CtyPath) :
    (encodeString w path).2 = path := by
  rw [encodeString]; split <;> rfl

theorem encodeDynamic_path (w : GoVal) (path : CtyPath) :
    (encodeDynamic w path).2 = path := by
  rw [encodeDynamic]; split <;> rfl

theorem encodeCapsule_path (w : GoVal) (elemName : String) (path : CtyPath) :
    (encodeCapsule w elemName path).2 = path := by
  rw [encodeCapsule]
  split
  · rfl
  · split
    · split <;> rfl
    · rfl

theorem encodeList_ok_path (val : GoVal) (ety : Ty) (path : CtyPath) (v : Value) (q : CtyPath)
    (h : encodeList val ety path = (.ok v, q)) : q = path := by
  rw [encodeList] at h
  split at h
  · simp at h; exact h.2.symm
  · simp at h; exact h.2.symm
  · split at h
    · simp at h; exact h.2.symm
    · split at h
      · exact absurd h (by simp)
      · next vs pf heq =>
        have h2 := encodeListLoop_ok_path _ _ _ _ _ _ heq
        simp at h h2
        rw [← h.2]
        exact h2
  · split at h
    · simp at h; exact h.2.symm
    · split at h
      · exact absurd h (by simp)
      · next vs pf heq =>
        have h2 := encodeListLoop_ok_path _ _ _ _ _ _ heq
        simp at h h2
        rw [← h.2]
        exact h2
  · exact absurd h (by simp)

theorem encodeMap_ok_path (val : GoVal) (ety : Ty) (path : CtyPath) (v : Value) (q : CtyPath)
    (h : encodeMap val ety path = (.ok v, q)) : q = path := by
  rw [encodeMap] at h
  split at h
  · simp at h; exact h.2.symm
  · split at h
    · simp at h; exact h.2.symm
    · split at h
      · simp at h; exact h.2.symm
      · split at h
        · split at h
          · exact absurd h (by simp)
          · next vs pf heq =>
            have h2 := encodeMapLoop_ok_path _ _ _ _ _ heq
            simp at h h2
            rw [← h.2]
            exact h2
        · exact absurd h (by simp)
  · exact absurd h (by simp)

theorem encodeSet_ok_path (val : GoVal) (ety : Ty) (path : CtyPath) (v : Value) (q : CtyPath)
    (h : encodeSet val ety path = (.ok v, q)) : q = path := by
  rw [encodeSet] at h
  split at h
  · simp at h; exact h.2.symm
  · simp at h; exact h.2.symm
  · split at h
    · simp at h; exact h.2.symm
    · split at h
      · exact absurd h (by simp)
      · simp at h; exact h.2.symm
  · split at h
    · simp at h; exact h.2.symm
    · split at h
      · exact absurd h (by simp)
      · simp at h; exact h.2.symm
  · split at h
    · simp at h; exact h.2.symm
    · split at h
      · exact absurd h (by simp)
      · simp at h; exact h.2.symm
  · exact absurd h (by simp)
  · exact absurd h (by simp)

theorem encodeObject_ok_path (val : GoVal) (attrs : List (String × Ty)) (path : CtyPath)
    (v : Value) (q : CtyPath)
    (h : encodeObject val attrs path = (.ok v, q)) : q = path := by
  rw [encodeObject] at h
  split at h
  · simp at h; exact h.2.symm
  · split at h
    · simp at h; exact h.2.symm
    · split at h
      · split at h
        · simp at h; exact h.2.symm
        · split at h
          · exact absurd h (by simp)
          · next vs pf heq =>
            have h2 := encodeObjectMapLoop_ok_path _ _ _ _ _ heq
            simp at h h2
            rw [← h.2]
            exact h2
      · exact absurd h (by simp)
  · split at h
    · simp at h; exact h.2.symm
    · split at h
      · exact absurd h (by simp)
      · next vs pf heq =>
        have h2 := encodeObjectStructLoop_ok_path _ _ _ _ _ _ heq
        simp at h h2
        rw [← h.2]
        exact h2
  · exact absurd h (by simp)

theorem encodeTuple_ok_path (val : GoVal) (etys : List Ty) (path : CtyPath)
    (v : Value) (q : CtyPath)
    (h : encodeTuple val etys path = (.ok v, q)) : q = path := by
  rw [encodeTuple] at h
  split at h
  · simp at h; exact h.2.symm
  · simp at h; exact h.2.symm
  · split at h
    · exact absurd h (by simp)
    · split at h
      · simp at h; exact h.2.symm
      · split at h
        · exact absurd h (by simp)
        · next vs pf heq =>
          have h2 := encodeTupleLoop_ok_path _ _ _ _ _ _ heq
          simp at h h2
          rw [← h.2]
          exact h2
  · split at h
    · exact absurd h (by simp)
    · split at h
      · simp at h; exact h.2.symm
      · split at h
        · exact absurd h (by simp)
        · next vs pf heq =>
          have h2 := encodeTupleLoop_ok_path _ _ _ _ _ _ heq
          simp at h h2
          rw [← h.2]
          exact h2
  · exact absurd h (by simp)

theorem encode_ok_path (val : GoVal) (ty : Ty) (path : CtyPath) (v : Value) (q : CtyPath)
    (h : encode val ty path = (.ok v, q)) : q = path := by
  rw [encode.eq_def] at h
  split at h
  · next w =>
    have h2 := encodePassthruogh_path (.structv (.ctyVal w)) ty path
    rw [h] at h2
    exact h2
  · split at h
    · have h2 := encodeBool_path val path
      rw [h] at h2; exact h2
    · have h2 := encodeNumber_path val path
      rw [h] at h2; exact h2
    · have h2 := encodeString_path val path
      rw [h] at h2; exact h2
    · have h2 := encodeDynamic_path val path
      rw [h] at h2; exact h2
    · exact encodeList_ok_path _ _ _ _ _ h
    · exact encodeMap_ok_path _ _ _ _ _ h
    · exact encodeSet_ok_path _ _ _ _ _ h
    · exact encodeObject_ok_path _ _ _ _ _ h
    · exact encodeTuple_ok_path _ _ _ _ _ h
    · next elemName =>
      have h2 := encodeCapsule_path val elemName path
      rw [h] at h2; exact h2

/-- C10: every handler that appends a path step truncates the path back
before returning successfully, so on every successful return of the
recursive encode function the final local path is exactly the path at
entry (in particular of the same length). -/
theorem claim10_path_discipline (val : GoVal) (ty : Ty) (path : CtyPath) (v : Value)
    (h : (encode val ty path).1 = .ok v) : (encode val ty path).2 = path := by
  rcases hres : encode val ty path with ⟨r, q⟩
  rw [hres] at h
  simp at h
  subst h
  simp [encode_ok_path val ty path v q hres]

theorem pathExtends_refl (p : CtyPath) : PathExtends p p := ⟨[], by simp⟩

theorem pathExtendsS_extends {q p : CtyPath} (h : PathExtendsS q p) : PathExtends q p := by
  obtain ⟨s, r, hr⟩ := h
  exact ⟨s :: r, hr⟩

theorem pathExtendsS_ne {q p : CtyPath} (h : PathExtendsS q p) : q ≠ p := by
  obtain ⟨s, r, rfl⟩ := h
  intro hc
  have := congrArg List.length hc
  simp at this

theorem pathExtends_step {q b : CtyPath} {s : PathStep}
    (h : PathExtends q (b ++ [s])) : PathExtendsS q b := by
  obtain ⟨r, hr⟩ := h
  exact ⟨s, r, by simpa using hr⟩

theorem encodeBool_err (w : GoVal) (path : CtyPath) (e : EncErr) (q : CtyPath)
    (h : encodeBool w path = (.error e, q)) : e.path = path := by
  rw [encodeBool] at h
  split at h
  · exact absurd h (by simp)
  · exact absurd h (by simp)
  · simp at h
    rw [← h.1]

theorem encodeNumber_err (w : GoVal) (path : CtyPath) (e : EncErr) (q : CtyPath)
    (h : encodeNumber w path = (.error e, q)) : e.path = path := by
  rw [encodeNumber] at h
  split at h
  · exact absurd h (by simp)
  · exact absurd h (by simp)
  · exact absurd h (by simp)
  · exact absurd h (by simp)
  · simp at h
    rw [← h.1]

theorem encodeString_err (w : GoVal) (path : CtyPath) (e : EncErr) (q : CtyPath)
    (h : encodeString w path = (.error e, q)) : e.path = path := by
  rw [encodeString] at h
  split at h
  · exact absurd h (by simp)
  · exact absurd h (by simp)
  · simp at h
    rw [← h.1]

theorem encodeDynamic_err (w : GoVal) (path : CtyPath) (e : EncErr) (q : CtyPath)
    (h : encodeDynamic w path = (.error e, q)) : e.path = path := by
  rw [encodeDynamic] at h
  split at h
  · exact absurd h (by simp)
  · exact absurd h (by simp)
  · simp at h
    rw [← h.1]
  · simp at h
    rw [← h.1]

theorem encodePassthruogh_err (w : GoVal) (ty : Ty) (path : CtyPath) (e : EncErr) (q : CtyPath)
    (h : encodePassthruogh w ty path = (.error e, q)) : e.path = path := by
  rw [encodePassthruogh] at h
  split at h
  · exact absurd h (by simp)
  · split at h
    · simp at h
      rw [← h.1]
    · exact absurd h (by simp)
  · simp at h
    rw [← h.1]

theorem encodeCapsule_err (w : GoVal) (elemName : String) (path : CtyPath) (e : EncErr)
    (q : CtyPath) (h : encodeCapsule w elemName path = (.error e, q)) : e.path = path := by
  rw [encodeCapsule] at h
  split at h
  · exact absurd h (by simp)
  · split at h
    · split at h
      · exact absurd h (by simp)
      · simp at h
        rw [← h.1]
    · simp at h
      rw [← h.1]

theorem encodeListLoop_err_path (ety : Ty)
    (H : ∀ (val : GoVal) (pp : CtyPath) (e : EncErr) (qq : CtyPath),
      encode val ety pp = (.error e, qq) → PathExtends e.path pp) :
    ∀ (elems : List GoVal) (i : Nat) (p : CtyPath) (e : EncErr) (q : CtyPath),
      encodeListLoop elems i ety p = (.error e, q) → PathExtendsS e.path p.dropLast := by
  intro elems
  induction elems with
  | nil =>
    intro i p e q h
    rw [encodeListLoop] at h
    exact absurd h (by simp)
  | cons el rest ih =>
    intro i p e q h
    rw [encodeListLoop] at h
    split at h
    · next err snd heq =>
      simp at h
      have h3 := H _ _ _ _ heq
      rw [h.1] at h3
      exact pathExtends_step h3
    · split at h
      · next err pf heq =>
        have h3 := ih _ _ _ _ heq
        simp at h h3
        rw [← h.1]
        exact h3
      · exact absurd h (by simp)

theorem encodeMapLoop_err_path (ety : Ty)
    (H : ∀ (val : GoVal) (pp : CtyPath) (e : EncErr) (qq : CtyPath),
      encode val ety pp = (.error e, qq) → PathExtends e.path pp) :
    ∀ (entries : List (String × GoVal)) (p : CtyPath) (e : EncErr) (q : CtyPath),
      encodeMapLoop entries ety p = (.error e, q) → PathExtendsS e.path p.dropLast := by
  intro entries
  induction entries with
  | nil =>
    intro p e q h
    rw [encodeMapLoop] at h
    exact absurd h (by simp)
  | cons kv rest ih =>
    intro p e q h
    rw [encodeMapLoop] at h
    split at h
    · next err snd heq =>
      simp at h
      have h3 := H _ _ _ _ heq
      rw [h.1] at h3
      exact pathExtends_step h3
    · split at h
      · next err pf heq =>
        have h3 := ih _ _ _ heq
        simp at h h3
        rw [← h.1]
        exact h3
      · exact absurd h (by simp)

theorem encodeSetLoop_err_path (ety : Ty)
    (H : ∀ (val : GoVal) (pp : CtyPath) (e : EncErr) (qq : CtyPath),
      encode val ety pp = (.error e, qq) → PathExtends e.path pp) :
    ∀ (elems : List GoVal) (p : CtyPath) (e : EncErr),
      encodeSetLoop elems ety p = .error e → PathExtends e.path p := by
  intro elems
  induction elems with
  | nil =>
    intro p e h
    rw [encodeSetLoop] at h
    exact absurd h (by simp)
  | cons el rest ih =>
    intro p e h
    rw [encodeSetLoop] at h
    split at h
    · next err snd heq =>
      simp at h
      have h3 := H _ _ _ _ heq
      rw [h] at h3
      exact h3
    · split at h
      · next err heq =>
        simp at h
        rw [← h]
        exact ih _ _ heq
      · exact absurd h (by simp)

theorem encodeObjectMapLoop_err_path :
    ∀ (attrs : List (String × Ty)) (entries : List (String × GoVal)) (p : CtyPath)
      (e : EncErr) (q : CtyPath),
      (∀ k aty, (k, aty) ∈ attrs → ∀ (gv : GoVal) (pp : CtyPath) (e2 : EncErr) (qq : CtyPath),
        encode gv aty pp = (.error e2, qq) → PathExtends e2.path pp) →
      encodeObjectMapLoop attrs entries p = (.error e, q) → PathExtendsS e.path p.dropLast := by
  intro attrs
  induction attrs with
  | nil =>
    intro entries p e q H h
    rw [encodeObjectMapLoop] at h
    exact absurd h (by simp)
  | cons ka rest ih =>
    intro entries p e q H h
    rw [encodeObjectMapLoop] at h
    split at h
    · split at h
      · next err pf heq =>
        have h3 := ih _ _ _ _ (fun k aty hm => H k aty (List.mem_cons_of_mem _ hm)) heq
        simp at h h3
        rw [← h.1]
        exact h3
      · exact absurd h (by simp)
    · next gv hlook =>
      split at h
      · next err snd heq =>
        simp at h
        have h3 := H ka.1 ka.2 (by simp) _ _ _ _ heq
        rw [h.1] at h3
        exact pathExtends_step h3
      · split at h
        · next err pf heq =>
          have h3 := ih _ _ _ _ (fun k aty hm => H k aty (List.mem_cons_of_mem _ hm)) heq
          simp at h h3
          rw [← h.1]
          exact h3
        · exact absurd h (by simp)

theorem encodeObjectStructLoop_err_path :
    ∀ (attrs : List (String × Ty)) (fields : List GoVal) (tags : List (String × Nat))
      (p : CtyPath) (e : EncErr) (q : CtyPath),
      (∀ k aty, (k, aty) ∈ attrs → ∀ (gv : GoVal) (pp : CtyPath) (e2 : EncErr) (qq : CtyPath),
        encode gv aty pp = (.error e2, qq) → PathExtends e2.path pp) →
      encodeObjectStructLoop attrs fields tags p = (.error e, q) →
      PathExtendsS e.path p.dropLast := by
  intro attrs
  induction attrs with
  | nil =>
    intro fields tags p e q H h
    rw [encodeObjectStructLoop] at h
    exact absurd h (by simp)
  | cons ka rest ih =>
    intro fields tags p e q H h
    rw [encodeObjectStructLoop] at h
    split at h
    · split at h
      · next err pf heq =>
        have h3 := ih _ _ _ _ _ (fun k aty hm => H k aty (List.mem_cons_of_mem _ hm)) heq
        simp at h h3
        rw [← h.1]
        exact h3
      · exact absurd h (by simp)
    · split at h
      · split at h
        · next err snd heq =>
          simp at h
          have h3 := H ka.1 ka.2 (by simp) _ _ _ _ heq
          rw [h.1] at h3
          exact pathExtends_step h3
        · split at h
          · next err pf heq =>
            have h3 := ih _ _ _ _ _ (fun k aty hm => H k aty (List.mem_cons_of_mem _ hm)) heq
            simp at h h3
            rw [← h.1]
            exact h3
          · exact absurd h (by simp)
      · simp at h
        rw [h.1.symm]
        exact ⟨PathStep.getAttr ka.1, [], by simp⟩

theorem encodeTupleLoop_err_path :
    ∀ (etys : List Ty) (elems : List GoVal) (i : Nat) (p : CtyPath)
      (e : EncErr) (q : CtyPath),
      (∀ ety, ety ∈ etys → ∀ (gv : GoVal) (pp : CtyPath) (e2 : EncErr) (qq : CtyPath),
        encode gv ety pp = (.error e2, qq) → PathExtends e2.path pp) →
      encodeTupleLoop etys elems i p = (.error e, q) → PathExtendsS e.path p.dropLast := by
  intro etys
  induction etys with
  | nil =>
    intro elems i p e q H h
    simp [encodeTupleLoop] at h
  | cons ety rest ih =>
    intro elems i p e q H h
    cases elems with
    | nil => simp [encodeTupleLoop] at h
    | cons el erest =>
      rw [encodeTupleLoop] at h
      split at h
      · next err snd heq =>
        simp at h
        have h3 := H ety (by simp) _ _ _ _ heq
        rw [h.1] at h3
        exact pathExtends_step h3
      · split at h
        · next err pf heq =>
          have h3 := ih _ _ _ _ _ (fun t hm => H t (List.mem_cons_of_mem _ hm)) heq
          simp at h h3
          rw [← h.1]
          exact h3
        · exact absurd h (by simp)

theorem encodeList_err_path (ety : Ty)
    (H : ∀ (val : GoVal) (pp : CtyPath) (e : EncErr) (qq : CtyPath),
      encode val ety pp = (.error e, qq) → PathExtends e.path pp)
    (val : GoVal) (path : CtyPath) (e : EncErr) (q : CtyPath)
    (h : encodeList val ety path = (.error e, q)) : PathExtends e.path path := by
  rw [encodeList] at h
  split at h
  · exact absurd h (by simp)
  · exact absurd h (by simp)
  · split at h
    · exact absurd h (by simp)
    · split at h
      · next err pf heq =>
        have h3 := encodeListLoop_err_path ety H _ _ _ _ _ heq
        simp at h h3
        rw [← h.1]
        exact pathExtendsS_extends h3
      · exact absurd h (by simp)
  · split at h
    · exact absurd h (by simp)
    · split at h
      · next err pf heq =>
        have h3 := encodeListLoop_err_path ety H _ _ _ _ _ heq
        simp at h h3
        rw [← h.1]
        exact pathExtendsS_extends h3
      · exact absurd h (by simp)
  · simp at h
    rw [← h.1]
    exact pathExtends_refl path

theorem encodeMap_err_path (ety : Ty)
    (H : ∀ (val : GoVal) (pp : CtyPath) (e : EncErr) (qq : CtyPath),
      encode val ety pp = (.error e, qq) → PathExtends e.path pp)
    (val : GoVal) (path : CtyPath) (e : EncErr) (q : CtyPath)
    (h : encodeMap val ety path = (.error e, q)) : PathExtends e.path path := by
  rw [encodeMap] at h
  split at h
  · exact absurd h (by simp)
  · split at h
    · exact absurd h (by simp)
    · split at h
      · exact absurd h (by simp)
      · split at h
        · split at h
          · next err pf heq =>
            have h3 := encodeMapLoop_err_path ety H _ _ _ _ heq
            simp at h h3
            rw [← h.1]
            exact pathExtendsS_extends h3
          · exact absurd h (by simp)
        · simp at h
          rw [← h.1]
          exact pathExtends_refl path
  · simp at h
    rw [← h.1]
    exact pathExtends_refl path

theorem encodeSet_err_path (ety : Ty)
    (H : ∀ (val : GoVal) (pp : CtyPath) (e : EncErr) (qq : CtyPath),
      encode val ety pp = (.error e, qq) → PathExtends e.path pp)
    (val : GoVal) (path : CtyPath) (e : EncErr) (q : CtyPath)
    (h : encodeSet val ety path = (.error e, q)) : PathExtends e.path path := by
  rw [encodeSet] at h
  split at h
  · exact absurd h (by simp)
  · exact absurd h (by simp)
  · split at h
    · exact absurd h (by simp)
    · split at h
      · next err heq =>
        simp at h
        rw [← h.1]
        exact encodeSetLoop_err_path ety H _ _ _ heq
      · exact absurd h (by simp)
  · split at h
    · exact absurd h (by simp)
    · split at h
      · next err heq =>
        simp at h
        rw [← h.1]
        exact encodeSetLoop_err_path ety H _ _ _ heq
      · exact absurd h (by simp)
  · split at h
    · exact absurd h (by simp)
    · split at h
      · next err heq =>
        simp at h
        rw [← h.1]
        exact encodeSetLoop_err_path ety H _ _ _ heq
      · exact absurd h (by simp)
  · simp at h
    rw [← h.1]
    exact pathExtends_refl path
  · simp at h
    rw [← h.1]
    exact pathExtends_refl path

theorem encodeObject_err_path (attrs : List (String × Ty))
    (H : ∀ k aty, (k, aty) ∈ attrs →
      ∀ (gv : GoVal) (pp : CtyPath) (e2 : EncErr) (qq : CtyPath),
        encode gv aty pp = (.error e2, qq) → PathExtends e2.path pp)
    (val : GoVal) (path : CtyPath) (e : EncErr) (q : CtyPath)
    (h : encodeObject val attrs path = (.error e, q)) : PathExtends e.path path := by
  rw [encodeObject] at h
  split at h
  · exact absurd h (by simp)
  · split at h
    · exact absurd h (by simp)
    · split at h
      · split at h
        · exact absurd h (by simp)
        · split at h
          · next err pf heq =>
            have h3 := encodeObjectMapLoop_err_path _ _ _ _ _ H heq
            simp at h h3
            rw [← h.1]
            exact pathExtendsS_extends h3
          · exact absurd h (by simp)
      · simp at h
        rw [← h.1]
        exact pathExtends_refl path
  · split at h
    · exact absurd h (by simp)
    · split at h
      · next err pf heq =>
        have h3 := encodeObjectStructLoop_err_path _ _ _ _ _ _ H heq
        simp at h h3
        rw [← h.1]
        exact pathExtendsS_extends h3
      · exact absurd h (by simp)
  · simp at h
    rw [← h.1]
    exact pathExtends_refl path

theorem encodeTuple_err_path (etys : List Ty)
    (H : ∀ ety, ety ∈ etys →
      ∀ (gv : GoVal) (pp : CtyPath) (e2 : EncErr) (qq : CtyPath),
        encode gv ety pp = (.error e2, qq) → PathExtends e2.path pp)
    (val : GoVal) (path : CtyPath) (e : EncErr) (q : CtyPath)
    (h : encodeTuple val etys path = (.error e, q)) : PathExtends e.path path := by
  rw [encodeTuple] at h
  split at h
  · exact absurd h (by simp)
  · exact absurd h (by simp)
  · split at h
    · simp at h
      rw [← h.1]
      exact pathExtends_refl path
    · split at h
      · exact absurd h (by simp)
      · split at h
        · next err pf heq =>
          have h3 := encodeTupleLoop_err_path _ _ _ _ _ _ H heq
          simp at h h3
          rw [← h.1]
          exact pathExtendsS_extends h3
        · exact absurd h (by simp)
  · split at h
    · simp at h
      rw [← h.1]
      exact pathExtends_refl path
    · split at h
      · exact absurd h (by simp)
      · split at h
        · next err pf heq =>
          have h3 := encodeTupleLoop_err_path _ _ _ _ _ _ H heq
          simp at h h3
          rw [← h.1]
          exact pathExtendsS_extends h3
        · exact absurd h (by simp)
  · simp at h
    rw [← h.1]
    exact pathExtends_refl path

theorem encode_err_path_aux : ∀ (n : Nat) (ty : Ty), sizeOf ty ≤ n →
    ∀ (val : GoVal) (path : CtyPath) (e : EncErr) (q : CtyPath),
      encode val ty path = (.error e, q) → PathExtends e.path path := by
  intro n
  induction n with
  | zero =>
    intro ty hty
    exact absurd hty (by cases ty <;> simp)
  | succ n ih =>
    intro ty hty val path e q h
    rw [encode.eq_def] at h
    split at h
    · rw [encodePassthruogh_err _ _ _ _ _ h]
      exact pathExtends_refl path
    · split at h
      · rw [encodeBool_err _ _ _ _ h]
        exact pathExtends_refl path
      · rw [encodeNumber_err _ _ _ _ h]
        exact pathExtends_refl path
      · rw [encodeString_err _ _ _ _ h]
        exact pathExtends_refl path
      · rw [encodeDynamic_err _ _ _ _ h]
        exact pathExtends_refl path
      · next ety =>
        refine encodeList_err_path ety
          (fun v2 p2 e2 q2 h2 => ih ety ?_ v2 p2 e2 q2 h2) val path e q h
        simp at hty
        omega
      · next ety =>
        refine encodeMap_err_path ety
          (fun v2 p2 e2 q2 h2 => ih ety ?_ v2 p2 e2 q2 h2) val path e q h
        simp at hty
        omega
      · next ety =>
        refine encodeSet_err_path ety
          (fun v2 p2 e2 q2 h2 => ih ety ?_ v2 p2 e2 q2 h2) val path e q h
        simp at hty
        omega
      · next attrs =>
        refine encodeObject_err_path attrs
          (fun k aty hm v2 p2 e2 q2 h2 => ih aty ?_ v2 p2 e2 q2 h2) val path e q h
        have hmem := List.sizeOf_lt_of_mem hm
        simp at hty hmem
        omega
      · next etys =>
        refine encodeTuple_err_path etys
          (fun aty hm v2 p2 e2 q2 h2 => ih aty ?_ v2 p2 e2 q2 h2) val path e q h
        have hmem := List.sizeOf_lt_of_mem hm
        simp at hty
        omega
      · rw [encodeCapsule_err _ _ _ _ _ h]
        exact pathExtends_refl path

theorem encode_err_path (val : GoVal) (ty : Ty) (path : CtyPath) (e : EncErr) (q : CtyPath)
    (h : encode val ty path = (.error e, q)) : PathExtends e.path path :=
  encode_err_path_aux (sizeOf ty) ty (Nat.le_refl _) val path e q h

theorem encodeListLoop_ok_elems (ety : Ty) :
    ∀ (elems : List GoVal) (i : Nat) (p : CtyPath) (vs : List Value) (pf : CtyPath),
      encodeListLoop elems i ety p = (.ok vs, pf) →
      vs.length = elems.length ∧
      ∀ (j : Nat) (gv : GoVal), elems[j]? = some gv →
        ∃ w, vs[j]? = some w ∧
          (encode gv ety
            (p.dropLast ++ [PathStep.index (Value.number (Int.ofNat (i + j)))])).1 = .ok w := by
  intro elems
  induction elems with
  | nil =>
    intro i p vs pf h
    simp [encodeListLoop] at h
    refine ⟨by simp [← h.1], ?_⟩
    intro j gv hj
    simp at hj
  | cons el rest ih =>
    intro i p vs pf h
    rw [encodeListLoop] at h
    split at h
    · exact absurd h (by simp)
    · next v snd heq =>
      split at h
      · exact absurd h (by simp)
      · next vs2 pf2 heq2 =>
        simp at h
        obtain ⟨hlen, hall⟩ := ih _ _ _ _ heq2
        constructor
        · rw [← h.1]
          simp [hlen]
        · intro j gv hj
          match j with
          | 0 =>
            simp at hj
            subst hj
            refine ⟨v, by simp [← h.1], ?_⟩
            have heq3 : (encode el ety
                (List.dropLast p ++ [PathStep.index (Value.number (Int.ofNat i))])).1 = .ok v := by
              rw [heq]
            simpa using heq3
          | j + 1 =>
            simp at hj
            obtain ⟨w, hw1, hw2⟩ := hall j gv hj
            refine ⟨w, by simp [← h.1, hw1], ?_⟩
            have harith : i + 1 + j = i + (j + 1) := by omega
            rw [harith] at hw2
            simpa using hw2

theorem encodeListLoop_first_err (ety : Ty) :
    ∀ (elems : List GoVal) (i : Nat) (p : CtyPath) (k : Nat) (gv : GoVal)
      (e : EncErr) (q : CtyPath),
      elems[k]? = some gv →
      (∀ (j : Nat) (gv2 : GoVal), j < k → elems[j]? = some gv2 →
        ∃ w, (encode gv2 ety
          (p.dropLast ++ [PathStep.index (Value.number (Int.ofNat (i + j)))])).1 = .ok w) →
      encode gv ety (p.dropLast ++ [PathStep.index (Value.number (Int.ofNat (i + k)))]) =
        (.error e, q) →
      (encodeListLoop elems i ety p).1 = .error e := by
  intro elems
  induction elems with
  | nil =>
    intro i p k gv e q hk
    simp at hk
  | cons el rest ih =>
    intro i p k gv e q hk hprev herr
    rw [encodeListLoop]
    match k with
    | 0 =>
      simp at hk
      subst hk
      simp at herr
      have herr2 : encode el ety
          (p.dropLast ++ [PathStep.index (Value.number (Int.ofNat i))]) = (.error e, q) := by
        simpa using herr
      rw [herr2]
    | k + 1 =>
      simp at hk
      obtain ⟨w, hw⟩ := hprev 0 el (by omega) (by simp)
      rcases hres : encode el ety
          (p.dropLast ++ [PathStep.index (Value.number (Int.ofNat (i + 0)))]) with ⟨r, snd⟩
      rw [hres] at hw
      simp at hw
      subst hw
      have hres2 : encode el ety
          (p.dropLast ++ [PathStep.index (Value.number (Int.ofNat i))]) = (.ok w, snd) := by
        simpa using hres
      have ih2 := ih (i + 1) (p.dropLast ++ [PathStep.index (Value.number (Int.ofNat i))])
        k gv e q
      simp only [List.dropLast_concat] at ih2
      have hrec : (encodeListLoop rest (i + 1) ety
          (p.dropLast ++ [PathStep.index (Value.number (Int.ofNat i))])).1 = .error e := by
        apply ih2 hk
        · intro j gv2 hjk hj
          have harith : i + 1 + j = i + (j + 1) := by omega
          rw [harith]
          exact hprev (j + 1) gv2 (by omega) (by simpa using hj)
        · have harith : i + 1 + k = i + (k + 1) := by omega
          rw [harith]
          exact herr
      rcases hloop : encodeListLoop rest (i + 1) ety
          (p.dropLast ++ [PathStep.index (Value.number (Int.ofNat i))]) with ⟨rr, rq⟩
      rw [hloop] at hrec
      simp at hrec
      subst hrec
      have hres3 : encode el ety
          (List.dropLast p ++ [PathStep.index (Value.number (↑i : Int))]) = (.ok w, snd) := by
        simpa using hres2
      simp [hres3, hloop]

/-- C4 amended: encoding a non-nil native slice of length k against a tuple
type declaring m element types yields the arity-mismatch error, reporting
both counts at the entry path and before any element is encoded, exactly
when k and m differ; when they agree no arity-mismatch error at the entry
path is possible (any failure stems from an element at a deeper path). -/
theorem claim4_tuple_arity_amended (elems : List GoVal) (etys : List Ty) (p : CtyPath) :
    (elems.length ≠ etys.length →
      (encode (.slicev false elems) (.tuple etys) p).1 =
        .error ⟨p, .wrongNumElements elems.length etys.length⟩) ∧
    (elems.length = etys.length →
      ∀ (g m : Nat), (encode (.slicev false elems) (.tuple etys) p).1 ≠
        .error ⟨p, .wrongNumElements g m⟩) := by
  constructor
  · intro hne
    simp [encode, encodeTuple, unwrapPointer, hne]
  · intro hlen g m hc
    by_cases hz : etys.length = 0
    · simp [encode, encodeTuple, unwrapPointer, hlen, hz] at hc
    · rcases hloop : encodeTupleLoop etys elems 0 (p ++ [PathStep.nilStep]) with ⟨lr, lp⟩
      simp [encode, encodeTuple, unwrapPointer, hlen, hz, hloop] at hc
      cases lr with
      | ok vs => simp at hc
      | error err =>
        simp at hc
        have h3 := encodeTupleLoop_err_path etys elems 0 (p ++ [PathStep.nilStep]) err lp
          (fun ety hm gv pp e2 qq h2 => encode_err_path gv ety pp e2 qq h2) hloop
        simp at h3
        have hne := pathExtendsS_ne h3
        rw [hc] at hne
        exact hne rfl

/-- C7: encoding a native sequence against a list type preserves element
order (element j of the result is the encoding of element j of the input at
index step j), and if the elements before position k succeed while element
k fails, the whole encoding returns exactly that element error, whose path
extends the entry path by index step k; no partial list is returned. -/
theorem claim7_list_order (elems : List GoVal) (ety : Ty) (p : CtyPath) :
    (∀ (v : Value) (q : CtyPath),
      encode (.slicev false elems) (.list ety) p = (.ok v, q) →
      ∃ vs, v = .list ety vs ∧ vs.length = elems.length ∧
        ∀ (j : Nat) (gv : GoVal), elems[j]? = some gv →
          ∃ w, vs[j]? = some w ∧
            (encode gv ety (p ++ [PathStep.index (Value.number (Int.ofNat j))])).1 = .ok w) ∧
    (∀ (k : Nat) (gv : GoVal) (e : EncErr) (q : CtyPath),
      elems[k]? = some gv →
      (∀ (j : Nat) (gv2 : GoVal), j < k → elems[j]? = some gv2 →
        ∃ w, (encode gv2 ety (p ++ [PathStep.index (Value.number (Int.ofNat j))])).1 = .ok w) →
      encode gv ety (p ++ [PathStep.index (Value.number (Int.ofNat k))]) = (.error e, q) →
      (encode (.slicev false elems) (.list ety) p).1 = .error e ∧
        PathExtends e.path (p ++ [PathStep.index (Value.number (Int.ofNat k))])) := by
  constructor
  · intro v q h
    by_cases hz : elems.length = 0
    · simp [encode, encodeList, unwrapPointer, hz] at h
      rw [List.length_eq_zero] at hz
      exact ⟨[], h.1.symm, by simp [hz], fun j gv hj => by simp [hz] at hj⟩
    · rcases hloop : encodeListLoop elems 0 ety (p ++ [PathStep.nilStep]) with ⟨lr, lp⟩
      simp [encode, encodeList, unwrapPointer, hz, hloop] at h
      cases lr with
      | error err => simp at h
      | ok vs =>
        simp at h
        obtain ⟨hlen, hall⟩ := encodeListLoop_ok_elems ety elems 0 _ vs lp hloop
        refine ⟨vs, h.1.symm, hlen, ?_⟩
        intro j gv hj
        obtain ⟨w, hw1, hw2⟩ := hall j gv hj
        refine ⟨w, hw1, ?_⟩
        simpa using hw2
  · intro k gv e q hk hprev herr
    have hz : elems.length ≠ 0 := by
      intro hz
      rw [List.length_eq_zero] at hz
      subst hz
      simp at hk
    have hfirst := encodeListLoop_first_err ety elems 0 (p ++ [PathStep.nilStep]) k gv e q hk
      (by
        intro j gv2 hjk hj
        obtain ⟨w, hw⟩ := hprev j gv2 hjk hj
        exact ⟨w, by simpa using hw⟩)
      (by simpa using herr)
    constructor
    · rcases hloop : encodeListLoop elems 0 ety (p ++ [PathStep.nilStep]) with ⟨lr, lp⟩
      rw [hloop] at hfirst
      simp at hfirst
      cases lr with
      | ok vs => simp at hfirst
      | error err =>
        simp at hfirst
        subst hfirst
        simp [encode, encodeList, unwrapPointer, hz, hloop]
    · exact encode_err_path _ _ _ _ _ herr

theorem encodeObjectMapLoop_spec :
    ∀ (attrs : List (String × Ty)) (entries : List (String × GoVal)) (p : CtyPath),
      (∀ (k : String) (aty : Ty) (gv : GoVal), (k, aty) ∈ attrs →
        lookupStr entries k = some gv →
        ∃ w, (encode gv aty (p.dropLast ++ [PathStep.getAttr k])).1 = .ok w) →
      ∃ vs pf, encodeObjectMapLoop attrs entries p = (.ok vs, pf) ∧
        vs.length = attrs.length ∧
        ∀ (k : String) (aty : Ty), (k, aty) ∈ attrs →
          (lookupStr entries k = none → (k, Value.null aty) ∈ vs) ∧
          (∀ gv, lookupStr entries k = some gv →
            ∃ w, (encode gv aty (p.dropLast ++ [PathStep.getAttr k])).1 = .ok w ∧
              (k, w) ∈ vs) := by
  intro attrs
  induction attrs with
  | nil =>
    intro entries p H
    exact ⟨[], p, by rw [encodeObjectMapLoop], rfl, by simp⟩
  | cons ka rest ih =>
    intro entries p H
    obtain ⟨k, aty⟩ := ka
    have hdl : (p.dropLast ++ [PathStep.getAttr k]).dropLast = p.dropLast := by simp
    have ihH : ∀ (k2 : String) (aty2 : Ty) (gv2 : GoVal), (k2, aty2) ∈ rest →
        lookupStr entries k2 = some gv2 →
        ∃ w, (encode gv2 aty2
          ((p.dropLast ++ [PathStep.getAttr k]).dropLast ++ [PathStep.getAttr k2])).1 = .ok w := by
      intro k2 aty2 gv2 hm hl
      rw [hdl]
      exact H k2 aty2 gv2 (List.mem_cons_of_mem _ hm) hl
    rcases hlook : lookupStr entries k with _ | gv
    · obtain ⟨vs, pf, hloop, hlen, hmem⟩ :=
        ih entries (p.dropLast ++ [PathStep.getAttr k]) ihH
      refine ⟨(k, Value.null aty) :: vs, pf, ?_, by simp [hlen], ?_⟩
      · rw [encodeObjectMapLoop, hlook, hloop]
      · intro k2 aty2 hm
        rcases List.mem_cons.mp hm with heq | hm2
        · injection heq with h1 h2
          subst h1
          subst h2
          constructor
          · intro _
            simp
          · intro gv2 hl2
            rw [hlook] at hl2
            simp at hl2
        · obtain ⟨hnone, hsome⟩ := hmem k2 aty2 hm2
          constructor
          · intro hl
            exact List.mem_cons_of_mem _ (hnone hl)
          · intro gv2 hl
            obtain ⟨w, hw1, hw2⟩ := hsome gv2 hl
            rw [hdl] at hw1
            exact ⟨w, hw1, List.mem_cons_of_mem _ hw2⟩
    · obtain ⟨w, hw⟩ := H k aty gv (by simp) hlook
      rcases hres : encode gv aty (p.dropLast ++ [PathStep.getAttr k]) with ⟨r, snd⟩
      rw [hres] at hw
      simp at hw
      subst hw
      obtain ⟨vs, pf, hloop, hlen, hmem⟩ :=
        ih entries (p.dropLast ++ [PathStep.getAttr k]) ihH
      refine ⟨(k, w) :: vs, pf, ?_, by simp [hlen], ?_⟩
      · simp only [encodeObjectMapLoop, hlook, hres, hloop]
      · intro k2 aty2 hm
        rcases List.mem_cons.mp hm with heq | hm2
        · injection heq with h1 h2
          subst h1
          subst h2
          constructor
          · intro hl
            rw [hlook] at hl
            simp at hl
          · intro gv2 hl2
            rw [hlook] at hl2
            simp at hl2
            subst hl2
            refine ⟨w, by rw [hres], by simp⟩
        · obtain ⟨hnone, hsome⟩ := hmem k2 aty2 hm2
          constructor
          · intro hl
            exact List.mem_cons_of_mem _ (hnone hl)
          · intro gv2 hl
            obtain ⟨w2, hw1, hw2⟩ := hsome gv2 hl
            rw [hdl] at hw1
            exact ⟨w2, hw1, List.mem_cons_of_mem _ hw2⟩

theorem encodeObjectStructLoop_spec :
    ∀ (attrs : List (String × Ty)) (fields : List GoVal) (tags : List (String × Nat))
      (p : CtyPath),
      (∀ (k : String) (aty : Ty) (idx : Nat), (k, aty) ∈ attrs →
        lookupStr tags k = some idx → idx < fields.length) →
      (∀ (k : String) (aty : Ty) (idx : Nat) (f : GoVal), (k, aty) ∈ attrs →
        lookupStr tags k = some idx → fields[idx]? = some f →
        ∃ w, (encode f aty (p.dropLast ++ [PathStep.getAttr k])).1 = .ok w) →
      ∃ vs pf, encodeObjectStructLoop attrs fields tags p = (.ok vs, pf) ∧
        vs.length = attrs.length ∧
        ∀ (k : String) (aty : Ty), (k, aty) ∈ attrs →
          (lookupStr tags k = none → (k, Value.null aty) ∈ vs) ∧
          (∀ (idx : Nat) (f : GoVal), lookupStr tags k = some idx → fields[idx]? = some f →
            ∃ w, (encode f aty (p.dropLast ++ [PathStep.getAttr k])).1 = .ok w ∧
              (k, w) ∈ vs) := by
  intro attrs
  induction attrs with
  | nil =>
    intro fields tags p _ _
    exact ⟨[], p, by rw [encodeObjectStructLoop], rfl, by simp⟩
  | cons ka rest ih =>
    intro fields tags p Hrange Hok
    obtain ⟨k, aty⟩ := ka
    have hdl : (p.dropLast ++ [PathStep.getAttr k]).dropLast = p.dropLast := by simp
    have ihRange : ∀ (k2 : String) (aty2 : Ty) (idx : Nat), (k2, aty2) ∈ rest →
        lookupStr tags k2 = some idx → idx < fields.length :=
      fun k2 aty2 idx hm hl => Hrange k2 aty2 idx (List.mem_cons_of_mem _ hm) hl
    have ihOk : ∀ (k2 : String) (aty2 : Ty) (idx : Nat) (f : GoVal), (k2, aty2) ∈ rest →
        lookupStr tags k2 = some idx → fields[idx]? = some f →
        ∃ w, (encode f aty2
          ((p.dropLast ++ [PathStep.getAttr k]).dropLast ++ [PathStep.getAttr k2])).1 = .ok w := by
      intro k2 aty2 idx f hm hl hf
      rw [hdl]
      exact Hok k2 aty2 idx f (List.mem_cons_of_mem _ hm) hl hf
    rcases hlook : lookupStr tags k with _ | idx
    · obtain ⟨vs, pf, hloop, hlen, hmem⟩ :=
        ih fields tags (p.dropLast ++ [PathStep.getAttr k]) ihRange ihOk
      refine ⟨(k, Value.null aty) :: vs, pf, ?_, by simp [hlen], ?_⟩
      · rw [encodeObjectStructLoop, hlook, hloop]
      · intro k2 aty2 hm
        rcases List.mem_cons.mp hm with heq | hm2
        · injection heq with h1 h2
          subst h1
          subst h2
          constructor
          · intro _
            simp
          · intro idx f hl2
            rw [hlook] at hl2
            simp at hl2
        · obtain ⟨hnone, hsome⟩ := hmem k2 aty2 hm2
          constructor
          · intro hl
            exact List.mem_cons_of_mem _ (hnone hl)
          · intro idx f hl hf
            obtain ⟨w, hw1, hw2⟩ := hsome idx f hl hf
            rw [hdl] at hw1
            exact ⟨w, hw1, List.mem_cons_of_mem _ hw2⟩
    · have hlt : idx < fields.length := Hrange k aty idx (by simp) hlook
      have hfget : fields[idx]? = some (fields.get ⟨idx, hlt⟩) := by
        simp [List.getElem?_eq_getElem hlt]
      obtain ⟨w, hw⟩ := Hok k aty idx (fields.get ⟨idx, hlt⟩) (by simp) hlook hfget
      rcases hres : encode (fields.get ⟨idx, hlt⟩) aty
          (p.dropLast ++ [PathStep.getAttr k]) with ⟨r, snd⟩
      rw [hres] at hw
      simp at hw
      subst hw
      obtain ⟨vs, pf, hloop, hlen, hmem⟩ :=
        ih fields tags (p.dropLast ++ [PathStep.getAttr k]) ihRange ihOk
      refine ⟨(k, w) :: vs, pf, ?_, by simp [hlen], ?_⟩
      · simp only [encodeObjectStructLoop, hlook, hloop]
        rw [dif_pos hlt]
        simp only [hres, hloop]
      · intro k2 aty2 hm
        rcases List.mem_cons.mp hm with heq | hm2
        · injection heq with h1 h2
          subst h1
          subst h2
          constructor
          · intro hl
            rw [hlook] at hl
            simp at hl
          · intro idx2 f hl2 hf2
            rw [hlook] at hl2
            simp at hl2
            subst hl2
            rw [hfget] at hf2
            injection hf2 with hf3
            subst hf3
            refine ⟨w, by rw [hres], by simp⟩
        · obtain ⟨hnone, hsome⟩ := hmem k2 aty2 hm2
          constructor
          · intro hl
            exact List.mem_cons_of_mem _ (hnone hl)
          · intro idx2 f hl hf
            obtain ⟨w2, hw1, hw2⟩ := hsome idx2 f hl hf
            rw [hdl] at hw1
            exact ⟨w2, hw1, List.mem_cons_of_mem _ hw2⟩

/-- C6: object encoding is governed by the declared attributes of the
target type: for a string-keyed mapping native, an attribute missing from
the mapping yields the typed null of its attribute type and present keys
are recursively encoded; for a struct native, attributes unresolved by the
struct-tag resolver yield typed nulls and resolved attributes are encoded
from the corresponding field; no error arises solely from a missing
attribute. -/
theorem claim6_object_attrs (attrs : List (String × Ty)) (p : CtyPath) :
    (∀ (entries : List (String × GoVal)),
      (∀ (k : String) (aty : Ty) (gv : GoVal), (k, aty) ∈ attrs →
        lookupStr entries k = some gv →
        ∃ w, (encode gv aty (p ++ [PathStep.getAttr k])).1 = .ok w) →
      ∃ vs, (encode (.mapv .str false entries) (.object attrs) p).1 =
          .ok (.object attrs vs) ∧
        vs.length = attrs.length ∧
        ∀ (k : String) (aty : Ty), (k, aty) ∈ attrs →
          (lookupStr entries k = none → (k, Value.null aty) ∈ vs) ∧
          (∀ gv, lookupStr entries k = some gv →
            ∃ w, (encode gv aty (p ++ [PathStep.getAttr k])).1 = .ok w ∧ (k, w) ∈ vs)) ∧
    (∀ (name : String) (fields : List GoVal) (tags : List (String × Nat)),
      (∀ (k : String) (aty : Ty) (idx : Nat), (k, aty) ∈ attrs →
        lookupStr tags k = some idx → idx < fields.length) →
      (∀ (k : String) (aty : Ty) (idx : Nat) (f : GoVal), (k, aty) ∈ attrs →
        lookupStr tags k = some idx → fields[idx]? = some f →
        ∃ w, (encode f aty (p ++ [PathStep.getAttr k])).1 = .ok w) →
      ∃ vs, (encode (.structv (.plain name fields tags)) (.object attrs) p).1 =
          .ok (.object attrs vs) ∧
        vs.length = attrs.length ∧
        ∀ (k : String) (aty : Ty), (k, aty) ∈ attrs →
          (lookupStr tags k = none → (k, Value.null aty) ∈ vs) ∧
          (∀ (idx : Nat) (f : GoVal), lookupStr tags k = some idx → fields[idx]? = some f →
            ∃ w, (encode f aty (p ++ [PathStep.getAttr k])).1 = .ok w ∧ (k, w) ∈ vs)) := by
  constructor
  · intro entries H
    rcases attrs with _ | ⟨ka, rest⟩
    · refine ⟨[], ?_, rfl, by simp⟩
      simp [encode, encodeObject, unwrapPointer]
    · obtain ⟨vs, pf, hloop, hlen, hmem⟩ :=
        encodeObjectMapLoop_spec (ka :: rest) entries (p ++ [PathStep.nilStep])
          (by
            intro k aty gv hm hl
            have := H k aty gv hm hl
            simpa using this)
      refine ⟨vs, ?_, hlen, ?_⟩
      · simp [encode, encodeObject, unwrapPointer, hloop]
      · intro k aty hm
        obtain ⟨hnone, hsome⟩ := hmem k aty hm
        refine ⟨hnone, ?_⟩
        intro gv hl
        obtain ⟨w, hw1, hw2⟩ := hsome gv hl
        exact ⟨w, by simpa using hw1, hw2⟩
  · intro name fields tags Hrange Hok
    rcases attrs with _ | ⟨ka, rest⟩
    · refine ⟨[], ?_, rfl, by simp⟩
      simp [encode, encodeObject, unwrapPointer]
    · obtain ⟨vs, pf, hloop, hlen, hmem⟩ :=
        encodeObjectStructLoop_spec (ka :: rest) fields tags (p ++ [PathStep.nilStep])
          Hrange
          (by
            intro k aty idx f hm hl hf
            have := Hok k aty idx f hm hl hf
            simpa using this)
      refine ⟨vs, ?_, hlen, ?_⟩
      · simp [encode, encodeObject, unwrapPointer, rivertagsGet, GoStruct.fields, hloop]
      · intro k aty hm
        obtain ⟨hnone, hsome⟩ := hmem k aty hm
        refine ⟨hnone, ?_⟩
        intro idx f hl hf
        obtain ⟨w, hw1, hw2⟩ := hsome idx f hl hf
        exact ⟨w, by simpa using hw1, hw2⟩

/-- C4 counterexample: the operation can fail even when the native sequence
length equals the declared element-type count, when an element itself fails
to encode; so failure is not equivalent to an arity mismatch. -/
theorem claim4_counterexample :
    [GoVal.intv 5].length = [Ty.bool].length ∧
    (encode (.slicev false [.intv 5]) (.tuple [.bool]) []).1 =
      .error ⟨[PathStep.index (Value.number 0)], .cannotConvert .int .bool⟩ := by
  constructor
  · rfl
  · simp [encode, encodeTuple, encodeTupleLoop, encodeBool, unwrapPointer, GoVal.kind]

/-- Witness for C2 at a depth-two nil chain and the list type. -/
theorem claim2_null_propagation_witness :
    NilChain (.ptr .ifaceNil) ∧
    encode (.ptr .ifaceNil) (.list .string) [] = (.ok (.null (.list .string)), []) :=
  ⟨NilChain.ptr .ifaceNil NilChain.ifaceNil,
   claim2_null_propagation (.list .string) (.ptr .ifaceNil)
     (NilChain.ptr .ifaceNil NilChain.ifaceNil) []⟩

/-- Witness for the amended C3 at an int-keyed non-empty mapping. -/
theorem claim3_nonstring_key_witness :
    (encode (.mapv .int false [("a", .boolv true)]) (.object [("a", .bool)]) []).1 =
      .error ⟨[], .nonStringKey .int⟩ ∧
    (encode (.mapv .int false [("a", .boolv true)]) (.map .bool) []).1 =
      .error ⟨[], .nonStringKey .int⟩ := by
  constructor
  · exact (claim3_nonstring_key_amended .int (by decide) [("a", .boolv true)]
      [("a", .bool)] .bool []).1
  · exact (claim3_nonstring_key_amended .int (by decide) [("a", .boolv true)]
      [] .bool []).2 (by simp)

/-- Witness for the amended C4: an arity mismatch of one element against
zero declared types, and the absence of an entry-path arity error when the
counts agree. -/
theorem claim4_tuple_arity_witness :
    ((encode (.slicev false [.intv 1]) (.tuple []) []).1 =
      .error ⟨[], .wrongNumElements 1 0⟩) ∧
    ((encode (.slicev false [.boolv true]) (.tuple [.bool]) []).1 ≠
      .error ⟨[], .wrongNumElements 1 1⟩) := by
  constructor
  · exact (claim4_tuple_arity_amended [.intv 1] [] []).1 (by simp)
  · exact (claim4_tuple_arity_amended [.boolv true] [.bool] []).2 (by simp) 1 1

/-- Witness for the amended C5 at a one-entry mapping and a one-field
struct. -/
theorem claim5_empty_object_witness :
    (encode (.mapv .str false [("x", .intv 3)]) (.object []) []).1 =
      .ok (.object [] []) ∧
    (encode (.structv (.plain "S" [.intv 3] [("a", 0)])) (.object []) []).1 =
      .ok (.object [] []) :=
  claim5_empty_object_amended [("x", .intv 3)] (.plain "S" [.intv 3] [("a", 0)])
    (by intro v; simp) []

/-- Witness for C6: a two-attribute object type against a mapping
containing only the first attribute encodes successfully. -/
theorem claim6_object_attrs_witness :
    ((encode (.mapv .str false [("a", .strv "x")])
      (.object [("a", .string), ("b", .number)]) []).1).isOk = true := by
  obtain ⟨vs, h1, hlen, hmem⟩ :=
    (claim6_object_attrs [("a", .string), ("b", .number)] []).1 [("a", .strv "x")]
      (by
        intro k aty gv hm hl
        simp at hm
        rcases hm with ⟨rfl, rfl⟩ | ⟨rfl, rfl⟩
        · simp [lookupStr] at hl
          subst hl
          exact ⟨.str "x", by simp [encode, encodeString, unwrapPointer]⟩
        · simp [lookupStr] at hl)
  rw [h1]
  rfl

/-- Witness for C7: a first-element failure reported at index step zero. -/
theorem claim7_list_order_witness :
    (encode (.slicev false [.boolv true, .intv 7]) (.list .number) []).1 =
      .error ⟨[PathStep.index (Value.number 0)], .cannotConvert .bool .number⟩ := by
  have h := (claim7_list_order [.boolv true, .intv 7] .number []).2 0 (.boolv true)
    ⟨[PathStep.index (Value.number 0)], .cannotConvert .bool .number⟩
    [PathStep.index (Value.number 0)]
    (by simp)
    (by intro j gv2 hj; omega)
    (by simp [encode, encodeNumber, unwrapPointer, GoVal.kind])
  exact h.1

/-- Witness for C9 at a boolean value converted to its own type. -/
theorem claim9_passthru_idempotent_witness :
    Convert (.bool true) .bool = .ok (.bool true) ∧
    (encode (.structv (.ctyVal (.bool true))) .bool []).1 = .ok (.bool true) := by
  have hc : Convert (.bool true) .bool = .ok (.bool true) := by
    simp [Convert, Value.typeOf, Ty.beq]
  exact ⟨hc, (claim9_passthru_idempotent (.bool true) (.bool true) .bool [] hc).1⟩

/-- Witness for C10 at a one-element list encoding from a non-empty entry
path. -/
theorem claim10_path_discipline_witness :
    (encode (.slicev false [.intv 1]) (.list .number) [PathStep.getAttr "z"]).2 =
      [PathStep.getAttr "z"] := by
  have h : (encode (.slicev false [.intv 1]) (.list .number) [PathStep.getAttr "z"]).1 =
      .ok (.list .number [.number 1]) := by
    simp [encode, encodeList, encodeListLoop, encodeNumber, unwrapPointer]
  exact claim10_path_discipline _ _ _ _ h
